import Mathlib

/-!
Shallow embedding of `src/mef.py`: a small command-line tool that bulk-transfers
MEF archives (zip files of catalog records) between a GeoNetwork-style catalog
server and the local filesystem.  The `get` command discovers record
identifiers matching a query (via a "magic bucket" or via pagination), stages
them into a server-side selection bucket in bounded sub-batches, and downloads
one archive per transfer batch; the `put` command replays a local archive into
the server.  HTTP interaction is modelled by an abstract server oracle that
assigns a status code (and payload) to every request the script can make; the
run itself is a trace-logging computation in an `Except`-style result type,
where `Stop.abort` models `sys.exit(1)` raised by `abort_on_error`.
-/

/-- Constant `BUCKET_NAME = 'mef'` (mef.py line 9). -/
def BUCKET_NAME : String := "mef"

/-- Constant `BUCKET_BATCH_SIZE = 100` (mef.py line 10). -/
def BUCKET_BATCH_SIZE : Nat := 100

/-- Status codes for which requests' `Response.raise_for_status` raises
`HTTPError`: exactly the client-error (4xx) and server-error (5xx) ranges. -/
def isHTTPError (s : Nat) : Prop := 400 ≤ s ∧ s < 600

instance (s : Nat) : Decidable (isHTTPError s) := by
  unfold isHTTPError; infer_instance

/-- Fuel-indexed helper for `itertools.batched`: successive chunks `xs.take n`.
The fuel bounds the recursion depth and is instantiated with `xs.length` in
`batched`, which suffices whenever `n ≥ 1`.  (`itertools.batched` raises
`ValueError` for `n < 1`; mef.py only calls it with positive `n`, lines 90
and 94.) -/
def batchedAux {α : Type} (n : Nat) : Nat → List α → List (List α)
  | _, [] => []
  | 0, _ :: _ => []
  | fuel + 1, x :: xs => ((x :: xs).take n) :: batchedAux n fuel ((x :: xs).drop n)

/-- `list(itertools.batched(xs, n))` as a list of chunks (mef.py lines 90, 94). -/
def batched {α : Type} (n : Nat) (xs : List α) : List (List α) :=
  batchedAux n xs.length xs

/-- Python slice `xs[:n]` for an `int` bound `n`: a nonnegative `n` keeps the
first `n` elements; a negative `n` drops the last `|n|` (clamped at length 0). -/
def pySliceTo {α : Type} (xs : List α) (n : Int) : List α :=
  if 0 ≤ n then xs.take n.toNat else xs.take (xs.length - n.natAbs)

/-- Python format `f"{i:02}"`: decimal, zero-padded on the left to width 2
(mef.py line 103). -/
def fmt02 (i : Nat) : String := if i < 10 then "0" ++ toString i else toString i

/-- mef.py line 90: `mef_batches = [ids] if batch <= 0 else
list(itertools.batched(ids, batch))`.  The CLI `batch` argument is an `int`. -/
def mefBatches (ids : List String) (batch : Int) : List (List String) :=
  if batch ≤ 0 then [ids] else batched batch.toNat ids

/-- mef.py line 103: `part = 'all' if n == 1 else f"{i:02}"`. -/
def partStr (i n : Nat) : String := if n = 1 then "all" else fmt02 i

/-- mef.py line 104: `filename = f"export-{format}-{timestamp}-{part}.zip"`. -/
def exportFilename (format : String) (timestamp : Nat) (part : String) : String :=
  "export-" ++ format ++ "-" ++ toString timestamp ++ "-" ++ part ++ ".zip"

/-- mef.py line 94: the sub-batches used to populate the transfer bucket,
`itertools.batched(mef_batch, BUCKET_BATCH_SIZE)`.  Note the chunk size is the
fixed constant, not the caller's transfer-batch size. -/
def bucketSubBatches (ids : List String) : List (List String) :=
  batched BUCKET_BATCH_SIZE ids

theorem batchedAux_flatten {α : Type} (n : Nat) (hn : 0 < n) :
    ∀ (fuel : Nat) (xs : List α), xs.length ≤ fuel →
      (batchedAux n fuel xs).flatten = xs := by
  intro fuel
  induction fuel with
  | zero =>
    intro xs h
    cases xs with
    | nil => rfl
    | cons x xs => simp at h
  | succ fuel ih =>
    intro xs h
    cases xs with
    | nil => rfl
    | cons x xs =>
      simp only [batchedAux, List.flatten_cons]
      rw [ih ((x :: xs).drop n)
        (by simp only [List.length_drop, List.length_cons] at h ⊢; omega)]
      exact List.take_append_drop n (x :: xs)

theorem batched_flatten {α : Type} (n : Nat) (hn : 0 < n) (xs : List α) :
    (batched n xs).flatten = xs :=
  batchedAux_flatten n hn xs.length xs le_rfl

theorem batchedAux_length {α : Type} (n : Nat) (hn : 0 < n) :
    ∀ (fuel : Nat) (xs : List α), xs.length ≤ fuel →
      (batchedAux n fuel xs).length = (xs.length + n - 1) / n := by
  intro fuel
  induction fuel with
  | zero =>
    intro xs h
    cases xs with
    | nil =>
      simp only [batchedAux, List.length_nil]
      rw [Nat.div_eq_of_lt (by omega)]
    | cons x xs => simp at h
  | succ fuel ih =>
    intro xs h
    cases xs with
    | nil =>
      simp only [batchedAux, List.length_nil]
      rw [Nat.div_eq_of_lt (by omega)]
    | cons x xs =>
      simp only [batchedAux, List.length_cons]
      rw [ih ((x :: xs).drop n)
        (by simp only [List.length_drop, List.length_cons] at h ⊢; omega)]
      simp only [List.length_drop, List.length_cons]
      rcases Nat.lt_or_ge (xs.length + 1) n with hlt | hge
      · have h2 : (xs.length + 1 + n - 1) / n = 1 :=
          Nat.div_eq_of_lt_le (by omega) (by omega)
        have h3 : (xs.length + 1 - n + n - 1) / n = 0 :=
          Nat.div_eq_of_lt (by omega)
        omega
      · have h1 : xs.length + 1 - n + n - 1 = xs.length := by omega
        have h2 : xs.length + 1 + n - 1 = xs.length + n := by omega
        rw [h1, h2, Nat.add_div_right _ hn]

theorem batched_length {α : Type} (n : Nat) (hn : 0 < n) (xs : List α) :
    (batched n xs).length = (xs.length + n - 1) / n :=
  batchedAux_length n hn xs.length xs le_rfl

theorem batchedAux_mem_length {α : Type} (n : Nat) :
    ∀ (fuel : Nat) (xs : List α) (b : List α),
      b ∈ batchedAux n fuel xs → b.length ≤ n := by
  intro fuel
  induction fuel with
  | zero =>
    intro xs b hb
    cases xs with
    | nil => simp [batchedAux] at hb
    | cons x xs => simp [batchedAux] at hb
  | succ fuel ih =>
    intro xs b hb
    cases xs with
    | nil => simp [batchedAux] at hb
    | cons x xs =>
      simp only [batchedAux, List.mem_cons] at hb
      rcases hb with hb | hb
      · subst hb
        simp [List.length_take]
      · exact ih _ b hb

theorem batched_mem_length {α : Type} (n : Nat) (xs : List α) (b : List α)
    (hb : b ∈ batched n xs) : b.length ≤ n :=
  batchedAux_mem_length n xs.length xs b hb

theorem batchedAux_ne_nil {α : Type} (n : Nat) (hn : 0 < n) :
    ∀ (fuel : Nat) (xs : List α) (b : List α),
      b ∈ batchedAux n fuel xs → b ≠ [] := by
  intro fuel
  induction fuel with
  | zero =>
    intro xs b hb
    cases xs with
    | nil => simp [batchedAux] at hb
    | cons x xs => simp [batchedAux] at hb
  | succ fuel ih =>
    intro xs b hb
    cases xs with
    | nil => simp [batchedAux] at hb
    | cons x xs =>
      simp only [batchedAux, List.mem_cons] at hb
      rcases hb with hb | hb
      · subst hb
        intro hc
        rw [List.take_eq_nil_iff] at hc
        rcases hc with hc | hc <;> simp_all
      · exact ih _ b hb

/-- Split a character list at every occurrence of the separator character:
the semantics of Python's `str.split` with a one-character separator (`n`
separators yield `n + 1` possibly-empty fields). -/
def splitOnChar (sep : Char) : List Char → List (List Char)
  | [] => [[]]
  | c :: cs =>
    if c = sep then [] :: splitOnChar sep cs
    else
      match splitOnChar sep cs with
      | [] => [[c]]
      | f :: fs => (c :: f) :: fs

/-- Parse one `key=value` piece of the `--query` argument: `p.split('=')` fed
to `dict(...)` (mef.py line 57) requires exactly two fields; any other shape
makes `dict` raise, modelled as `none`. -/
def parsePair (p : List Char) : Option (String × String) :=
  match splitOnChar '=' p with
  | [k, v] => some (String.mk k, String.mk v)
  | _ => none

/-- mef.py line 57: `dict(p.split('=') for p in query.split(','))`, as an
association list in generator order (`dict` keeps the last value on duplicate
keys, which `dictGet` below reproduces). -/
def parseQuery (q : String) : Option (List (String × String)) :=
  (splitOnChar ',' q.toList).mapM parsePair

/-- mef.py lines 50-55: the fixed `$api/q` query parameters. -/
def fixedQParams : List (String × String) :=
  [("_content_type", "json"), ("sortBy", "changeDate"),
   ("resultType", "results"), ("buildSummary", "false")]

/-- Lookup in a Python dict built from an association list: a later binding
overrides an earlier one (the semantics of both `dict(pairs)` and the
`d1 | d2` dict-union at mef.py line 57). -/
def dictGet (ps : List (String × String)) (k : String) : Option String :=
  ((ps.filter (fun p => p.1 == k)).getLast?).map (fun p => p.2)

/-- mef.py lines 50-57: the effective `$api/q` parameter dict — `q_params`
after `q_params |= dict(p.split('=') for p in query.split(','))`.  `none`
models the `ValueError` crash on a malformed `--query`; an absent or empty
`query` is falsy, so the merge is skipped (`if query:`). -/
def qParams (query : Option String) : Option (List (String × String)) :=
  match query with
  | none => some fixedQParams
  | some q =>
    if q = "" then some fixedQParams
    else (parseQuery q).map (fun ps => fixedQParams ++ ps)

/-- One record object of the `/q` JSON response, carrying its `uuid` field. -/
structure MetaRecord where
  uuid : String
deriving DecidableEq

/-- One entry of the `/q` response's `metadata` JSON field: either a record
object, or — a known server output defect — a record wrapped in a JSON list
(mef.py lines 216-222). -/
inductive MetaEntry where
  | plain (r : MetaRecord)
  | wrapped (rs : List MetaRecord)
deriving DecidableEq

/-- `query_records` (mef.py lines 216-222): for each entry yield `m[0]` when
the entry is a list and `m` itself otherwise.  `m[0]` on an *empty* list would
raise `IndexError` and crash the run, modelled as `none`. -/
def query_records : List MetaEntry → Option (List MetaRecord)
  | [] => some []
  | .plain r :: ms => (query_records ms).map (fun rs => r :: rs)
  | .wrapped [] :: _ => none
  | .wrapped (r :: _) :: ms => (query_records ms).map (fun rs => r :: rs)

/-- Case-insensitive "does `s` start with pattern `p`" on character lists. -/
def lcMatchAt : List Char → List Char → Bool
  | [], _ => true
  | _ :: _, [] => false
  | p :: ps, c :: cs => p.toLower == c.toLower && lcMatchAt ps cs

/-- Model of `re.search('<body>.*</body>', s, re.IGNORECASE | re.DOTALL)`
(mef.py line 203): the match, if any, starts at the leftmost position where
`<body>` occurs with some `</body>` starting at least 6 characters later, and
— `.*` being greedy with DOTALL — extends to the end of the last such
`</body>`.  Returns the matched span `m[0]`. -/
def searchBody (s : List Char) : Option (List Char) :=
  let opens := (List.range s.length).filter
    (fun i => lcMatchAt "<body>".toList (s.drop i))
  let closes := (List.range s.length).filter
    (fun p => lcMatchAt "</body>".toList (s.drop p))
  match opens.find? (fun i => closes.any (fun p => decide (i + 6 ≤ p))) with
  | none => none
  | some i =>
    match (closes.filter (fun p => decide (i + 6 ≤ p))).getLast? with
    | none => none
    | some p => some ((s.drop i).take (p + 7 - i))

/-- Scan for the closing `>` of a lazy `<[^<]+?>` match: succeed at the first
`>`, fail on `<` or end of input; returns the remainder after the `>`. -/
def chopTagRest : List Char → Option (List Char)
  | [] => none
  | c :: rest =>
    if c = '>' then some rest
    else if c = '<' then none
    else chopTagRest rest

/-- Try to match `<[^<]+?>` immediately after an opening `<`: the character
class needs at least one character that is not `<`, then `chopTagRest` finds
the lazy closing `>`. -/
def chopTag : List Char → Option (List Char)
  | [] => none
  | c :: rest => if c = '<' then none else chopTagRest rest

/-- Fuel-indexed body of `re.sub('<[^<]+?>', ' ', s)` (mef.py line 206): each
non-overlapping match of `<[^<]+?>` is replaced by one space; on a failed
match attempt the scan advances one character.  Fuel is instantiated with the
input length, which suffices since each step consumes at least one character. -/
def stripTagsGo : Nat → List Char → List Char
  | 0, s => s
  | _ + 1, [] => []
  | fuel + 1, c :: rest =>
    if c = '<' then
      match chopTag rest with
      | some rest2 => ' ' :: stripTagsGo fuel rest2
      | none => c :: stripTagsGo fuel rest
    else c :: stripTagsGo fuel rest

/-- mef.py line 206: the "poor man's html stripping" tag-removal sub. -/
def stripTags (s : List Char) : List Char := stripTagsGo s.length s

/-- An HTTP response as `abort_on_error` sees it: status code, raw text, and
the result of `r.json()` — an external JSON parser, so it is abstracted as an
optional already-parsed value of some payload type `J` (`none` models
`JSONDecodeError`). -/
structure Response (J : Type) where
  status_code : Nat
  text : String
  jsonOrError : Option J

/-- The human-readable diagnostic `abort_on_error` prints before exiting:
either a tag-stripped HTML `<body>`, or the parsed JSON body, or the raw
response text. -/
inductive Diagnostic (J : Type) where
  | htmlBody (stripped : String)
  | jsonBody (j : J)
  | rawText (t : String)
deriving DecidableEq

/-- Diagnostic selection inside `abort_on_error` (mef.py lines 202-211): first
try the `<body>` regex and strip tags from the match; else print the parsed
JSON; else print the raw text. -/
def mkDiagnostic {J : Type} (r : Response J) : Diagnostic J :=
  match searchBody r.text.toList with
  | some m0 => .htmlBody (String.mk (stripTags m0))
  | none =>
    match r.jsonOrError with
    | some j => .jsonBody j
    | none => .rawText r.text

/-- `abort_on_error` (mef.py lines 196-214): if `raise_for_status` raises —
i.e. exactly on a 4xx/5xx status — print a diagnostic and `sys.exit(1)`;
otherwise return normally.  `some (d, c)` means "printed diagnostic `d` and
exited with status `c`"; `none` means the run continues. -/
def abort_on_error {J : Type} (r : Response J) : Option (Diagnostic J × Nat) :=
  if isHTTPError r.status_code then some (mkDiagnostic r, 1) else none

/-- Why a run stopped early: `abort` models `sys.exit(1)` from
`abort_on_error`; `pyError` models an uncaught Python exception (e.g.
`IndexError` from `m[0]` on an empty list, or `int(None)`); `fuelOut` marks
exhaustion of the fuel bounding the paginated while-loop (the real loop would
simply keep issuing requests). -/
inductive Stop where
  | abort
  | pyError
  | fuelOut
deriving DecidableEq

/-- A label identifying each HTTP request the `get`/`put` commands can issue,
with enough indices to tell repeated calls apart. -/
inductive ReqLabel where
  | handshake
  | qMagic
  | putMagic
  | getMagic
  | qPage (fromOffset : Int)
  | putBucket (batchIdx subIdx : Nat)
  | getBucket (batchIdx : Nat)
  | mefExport (batchIdx : Nat)
  | deleteBucket (batchIdx : Nat)
  | putRecord (recIdx : Nat)
deriving DecidableEq

/-- Is this label the transfer-bucket DELETE (mef.py line 118)? -/
def ReqLabel.isDelete : ReqLabel → Bool
  | .deleteBucket _ => true
  | _ => false

/-- A request trace: the labels of the HTTP calls a run issued, each with the
status code the server answered. -/
abbrev Tr := List (ReqLabel × Nat)

/-- A run fragment: its outcome (or the reason it stopped) together with the
trace of requests it issued, including the request whose failing status
triggered an abort. -/
abbrev M (α : Type) : Type := Except Stop α × Tr

/-- A fragment that issues no request and yields `a`. -/
def pureM {α : Type} (a : α) : M α := (.ok a, [])

/-- Sequencing of run fragments: traces concatenate; a `Stop` cuts the rest. -/
def bindM {α β : Type} (m : M α) (f : α → M β) : M β :=
  match m with
  | (.error s, tr) => (.error s, tr)
  | (.ok a, tr) =>
    match f a with
    | (r, tr2) => (r, tr ++ tr2)

/-- Issue a request and ignore its status (the mef.py line 37 handshake, whose
response is deliberately not passed to `abort_on_error`, line 38). -/
def request (l : ReqLabel) (status : Nat) : M Unit := (.ok (), [(l, status)])

/-- Issue a request and run `abort_on_error` on the response: on a 4xx/5xx
status the run aborts (`sys.exit(1)`), otherwise it continues. -/
def checked (l : ReqLabel) (status : Nat) : M Unit :=
  if isHTTPError status then (.error .abort, [(l, status)])
  else (.ok (), [(l, status)])

/-- A `/q` response as the paginated loop reads it: status, the `@to` field
(`none` when absent, in which case `int(rsp.get('@to'))` raises), and the
`metadata` entry list (mef.py lines 77-81). -/
structure QRsp where
  status_code : Nat
  atTo : Option Int
  metadata : List MetaEntry

/-- A `GET /selections/...` response: status plus the identifier list its JSON
body decodes to. -/
structure IdsRsp where
  status_code : Nat
  ids : List String

/-- The abstract catalog server a `get` run talks to: one field per endpoint,
giving the status (and payload) of each request the script can make.  Repeated
calls to the same endpoint are told apart by the same indices that appear in
`ReqLabel`. -/
structure Server where
  infoStatus : Nat
  infoCookies : List (String × String)
  qMagicRsp : QRsp
  putMagicStatus : Nat
  getMagicRsp : IdsRsp
  qPage : Int → QRsp
  putBucketStatus : Nat → Nat → Nat
  getBucketRsp : Nat → IdsRsp
  mefExportStatus : Nat → Nat
  deleteBucketStatus : Nat → Nat
  clock : Nat → Nat

/-- mef.py lines 71-72: `if limit and len(ids) >= limit: ids = ids[:limit]` —
the truncation applied to the magic-bucket identifier list.  `limit` is the
CLI `int`. -/
def magicTrunc (limit : Int) (ids : List String) : List String :=
  if limit ≠ 0 ∧ limit ≤ (ids.length : Int) then pySliceTo ids limit else ids

/-- Magic-bucket discovery (mef.py lines 60-72): seed the last-query context
with one `/q` call, PUT the magic `metadata` bucket with no ids, read the
bucket back, then apply the limit truncation.  Every response goes through
`abort_on_error`. -/
def magicDiscover (srv : Server) (limit : Int) : M (List String) :=
  bindM (checked .qMagic srv.qMagicRsp.status_code) fun _ =>
  bindM (checked .putMagic srv.putMagicStatus) fun _ =>
  bindM (checked .getMagic srv.getMagicRsp.status_code) fun _ =>
  pureM (magicTrunc limit srv.getMagicRsp.ids)

/-- Paginated discovery (mef.py lines 74-87): request `/q` with `from = to+1`,
read `@to` and the page's uuids (via `query_records`), stop on an empty page,
otherwise accumulate; when `limit` is nonzero and the accumulated list has
reached it, truncate to `limit` and stop.  The fuel bounds the number of loop
iterations. -/
def pagedDiscover (srv : Server) (limit : Int) :
    Nat → Int → List String → M (List String)
  | 0, _, _ => (.error .fuelOut, [])
  | fuel + 1, ofs, ids =>
    bindM (checked (.qPage (ofs + 1)) (srv.qPage (ofs + 1)).status_code) fun _ =>
    match (srv.qPage (ofs + 1)).atTo with
    | none => (.error .pyError, [])
    | some ofs2 =>
      match query_records (srv.qPage (ofs + 1)).metadata with
      | none => (.error .pyError, [])
      | some recs =>
        match recs.map (fun r => r.uuid) with
        | [] => pureM ids
        | newid :: newids =>
          let ids2 := ids ++ newid :: newids
          if limit ≠ 0 ∧ limit ≤ (ids2.length : Int) then pureM (pySliceTo ids2 limit)
          else pagedDiscover srv limit fuel ofs2 ids2

/-- The bucket-population PUTs for one transfer batch (mef.py lines 93-96):
one checked PUT per `BUCKET_BATCH_SIZE`-sized sub-batch. -/
def fillPuts (srv : Server) (i : Nat) : List (List String) → Nat → M Unit
  | [], _ => pureM ()
  | _ :: subs, j =>
    bindM (checked (.putBucket i j) (srv.putBucketStatus i j)) fun _ =>
    fillPuts srv i subs (j + 1)

/-- The per-batch export loop body (mef.py lines 92-119), processing the
remaining batches starting at 1-based index `i` of `n`.  Returns the list of
files written and the list of filenames reported by dry-run.  After the
(non-dry-run) archive download, and in every batch of a dry-run, a checked
DELETE clears the transfer bucket. -/
def exportBatches (srv : Server) (format : String) (dryrun : Bool) (n : Nat) :
    List (List String) → Nat → M (List String × List String)
  | [], _ => pureM ([], [])
  | b :: bs, i =>
    bindM (fillPuts srv i (bucketSubBatches b) 0) fun _ =>
    bindM (checked (.getBucket i) (srv.getBucketRsp i).status_code) fun _ =>
    let filename := exportFilename format (srv.clock i) (partStr i n)
    if dryrun then
      bindM (checked (.deleteBucket i) (srv.deleteBucketStatus i)) fun _ =>
      bindM (exportBatches srv format dryrun n bs (i + 1)) fun wr =>
      pureM (wr.1, filename :: wr.2)
    else
      bindM (checked (.mefExport i) (srv.mefExportStatus i)) fun _ =>
      bindM (checked (.deleteBucket i) (srv.deleteBucketStatus i)) fun _ =>
      bindM (exportBatches srv format dryrun n bs (i + 1)) fun wr =>
      pureM (filename :: wr.1, wr.2)

/-- Outcome of a completed `get` run: the discovered identifier list, the
files written, and the filenames a dry-run reported it would write. -/
structure GetResult where
  ids : List String
  written : List String
  wouldWrite : List String
deriving DecidableEq

/-- The `get` command (mef.py lines 13-119): handshake (status deliberately
unchecked, line 38), discovery by the selected strategy, then the batched
export loop.  `pageFuel` bounds the paginated while-loop. -/
def getRun (srv : Server) (limit batch : Int) (magic dryrun : Bool)
    (format : String) (pageFuel : Nat) : M GetResult :=
  bindM (request .handshake srv.infoStatus) fun _ =>
  bindM (if magic then magicDiscover srv limit
         else pagedDiscover srv limit pageFuel 0 []) fun ids =>
  bindM (exportBatches srv format dryrun (mefBatches ids batch).length
          (mefBatches ids batch) 1) fun wr =>
  pureM ⟨ids, wr.1, wr.2⟩

/-- One top-level entry of a local MEF archive, as `zipfile.Path.iterdir`
yields it: its name, whether it is a directory, whether it contains
`metadata/metadata.xml`, and that file's text when present. -/
structure ArchiveEntry where
  name : String
  is_dir : Bool
  hasMetadataXml : Bool
  xmlText : String
deriving DecidableEq

/-- A record yielded by `mef_records`: `{'id': p.name, 'path': md}`, with the
path replaced by the text `rec['path'].read_text()` returns for it. -/
structure MefRec where
  id : String
  data : String
deriving DecidableEq

/-- `mef_records` (mef.py lines 224-231): iterate the archive's top-level
entries, skip non-directories and directories without `metadata/metadata.xml`,
and yield an id/path pair for each remaining entry. -/
def mef_records : List ArchiveEntry → List MefRec
  | [] => []
  | p :: ps =>
    if ¬p.is_dir then mef_records ps
    else if ¬p.hasMetadataXml then mef_records ps
    else ⟨p.name, p.xmlText⟩ :: mef_records ps

/-- The abstract server a `put` run talks to. -/
structure PutServer where
  infoStatus : Nat
  putRecordStatus : Nat → Nat

/-- The per-record PUT loop of `put` in `record` mode (mef.py lines 177-184):
one checked PUT per yielded record, incrementing the counter `i` after each
successful call. -/
def putRecs (srv : PutServer) : List MefRec → Nat → M Nat
  | [], i => pureM i
  | _ :: rs, i =>
    bindM (checked (.putRecord i) (srv.putRecordStatus i)) fun _ =>
    putRecs srv rs (i + 1)

/-- The `put` command in `record` mode (mef.py lines 123-185): handshake
(checked this time, line 137), then the per-record loop over `mef_records`;
returns the printed count of updated records. -/
def putRecordRun (srv : PutServer) (archive : List ArchiveEntry) : M Nat :=
  bindM (checked .handshake srv.infoStatus) fun _ =>
  putRecs srv (mef_records archive) 0

deriving instance DecidableEq for Except

theorem bindM_ok {α β : Type} (a : α) (tr : Tr) (f : α → M β) :
    bindM (.ok a, tr) f = ((f a).1, tr ++ (f a).2) := by
  unfold bindM
  rcases h : f a with ⟨r, tr2⟩
  simp [h]

theorem bindM_error {α β : Type} (s : Stop) (tr : Tr) (f : α → M β) :
    bindM (.error s, tr) f = (.error s, tr) := rfl

theorem bindM_eq_ok {α β : Type} (m : M α) (f : α → M β) (b : β) (tr : Tr)
    (h : bindM m f = (.ok b, tr)) :
    ∃ a tr1 tr2, m = (.ok a, tr1) ∧ f a = (.ok b, tr2) ∧ tr = tr1 ++ tr2 := by
  rcases m with ⟨e, tr1⟩
  cases e with
  | error s => simp [bindM] at h
  | ok a =>
    rw [bindM_ok] at h
    refine ⟨a, tr1, (f a).2, rfl, ?_, ?_⟩
    · rcases hf : f a with ⟨r, tr2⟩
      rw [hf] at h
      simp at h
      simp [h.1]
    · exact (Prod.mk.injEq _ _ _ _ ▸ h).2.symm

theorem checked_eq_ok (l : ReqLabel) (s : Nat) (a : Unit) (tr : Tr)
    (h : checked l s = (.ok a, tr)) : tr = [(l, s)] ∧ ¬ isHTTPError s := by
  unfold checked at h
  split at h
  · simp at h
  · simp at h
    exact ⟨h.symm, by assumption⟩

theorem checked_ok_of_not_error (l : ReqLabel) (s : Nat) (hs : ¬ isHTTPError s) :
    checked l s = (.ok (), [(l, s)]) := by
  unfold checked
  rw [if_neg hs]

/-- Every request in the trace is either the unchecked handshake or answered
with a non-error status. -/
def GoodTrace (tr : Tr) : Prop :=
  ∀ p ∈ tr, p.1 = ReqLabel.handshake ∨ ¬ isHTTPError p.2

/-- A run fragment that completes normally only if every non-handshake request
in its trace got a non-error status. -/
def ChecksOk {α : Type} (m : M α) : Prop :=
  ∀ a tr, m = (.ok a, tr) → GoodTrace tr

theorem goodTrace_append {tr1 tr2 : Tr} (h1 : GoodTrace tr1) (h2 : GoodTrace tr2) :
    GoodTrace (tr1 ++ tr2) := by
  intro p hp
  rcases List.mem_append.mp hp with hp | hp
  · exact h1 p hp
  · exact h2 p hp

theorem checksOk_pureM {α : Type} (a : α) : ChecksOk (pureM a) := by
  intro b tr h
  unfold pureM at h
  simp at h
  simp [h.2, GoodTrace]

theorem checksOk_checked (l : ReqLabel) (s : Nat) : ChecksOk (checked l s) := by
  intro a tr h
  rcases checked_eq_ok l s a tr h with ⟨htr, hs⟩
  subst htr
  intro p hp
  simp at hp
  subst hp
  exact Or.inr hs

theorem checksOk_request (s : Nat) : ChecksOk (request .handshake s) := by
  intro a tr h
  unfold request at h
  simp at h
  subst h
  intro p hp
  simp at hp
  subst hp
  exact Or.inl rfl

theorem checksOk_stopped {α : Type} (s : Stop) (tr : Tr) :
    ChecksOk ((.error s, tr) : M α) := by
  intro a tr2 h
  simp at h

theorem checksOk_bindM {α β : Type} (m : M α) (f : α → M β)
    (hm : ChecksOk m) (hf : ∀ a, ChecksOk (f a)) : ChecksOk (bindM m f) := by
  intro b tr h
  rcases bindM_eq_ok m f b tr h with ⟨a, tr1, tr2, h1, h2, h3⟩
  subst h3
  exact goodTrace_append (hm a tr1 h1) (hf a b tr2 h2)

theorem pureM_eq_ok {α : Type} (a b : α) (tr : Tr) (h : pureM a = (.ok b, tr)) :
    a = b ∧ tr = [] := by
  unfold pureM at h
  simp at h
  exact ⟨h.1, h.2⟩

theorem checksOk_magicDiscover (srv : Server) (limit : Int) :
    ChecksOk (magicDiscover srv limit) := by
  unfold magicDiscover
  apply checksOk_bindM _ _ (checksOk_checked _ _)
  intro _
  apply checksOk_bindM _ _ (checksOk_checked _ _)
  intro _
  apply checksOk_bindM _ _ (checksOk_checked _ _)
  intro _
  exact checksOk_pureM _

theorem checksOk_pagedDiscover (srv : Server) (limit : Int) :
    ∀ (fuel : Nat) (ofs : Int) (ids : List String),
      ChecksOk (pagedDiscover srv limit fuel ofs ids) := by
  intro fuel
  induction fuel with
  | zero =>
    intro ofs ids
    exact checksOk_stopped _ _
  | succ fuel ih =>
    intro ofs ids
    simp only [pagedDiscover]
    apply checksOk_bindM _ _ (checksOk_checked _ _)
    intro _
    cases (srv.qPage (ofs + 1)).atTo with
    | none => exact checksOk_stopped _ _
    | some ofs2 =>
      dsimp only
      cases query_records (srv.qPage (ofs + 1)).metadata with
      | none => exact checksOk_stopped _ _
      | some recs =>
        dsimp only
        cases recs.map (fun r => r.uuid) with
        | nil => exact checksOk_pureM _
        | cons newid newids =>
          dsimp only
          split
          · exact checksOk_pureM _
          · exact ih _ _

theorem checksOk_fillPuts (srv : Server) (i : Nat) :
    ∀ (subs : List (List String)) (j : Nat), ChecksOk (fillPuts srv i subs j) := by
  intro subs
  induction subs with
  | nil =>
    intro j
    exact checksOk_pureM _
  | cons b bs ih =>
    intro j
    simp only [fillPuts]
    apply checksOk_bindM _ _ (checksOk_checked _ _)
    intro _
    exact ih _

theorem checksOk_exportBatches (srv : Server) (format : String) (dryrun : Bool)
    (n : Nat) : ∀ (bs : List (List String)) (i : Nat),
      ChecksOk (exportBatches srv format dryrun n bs i) := by
  intro bs
  induction bs with
  | nil =>
    intro i
    exact checksOk_pureM _
  | cons b bs ih =>
    intro i
    simp only [exportBatches]
    apply checksOk_bindM _ _ (checksOk_fillPuts _ _ _ _)
    intro _
    apply checksOk_bindM _ _ (checksOk_checked _ _)
    intro _
    dsimp only
    split
    · apply checksOk_bindM _ _ (checksOk_checked _ _)
      intro _
      apply checksOk_bindM _ _ (ih _)
      intro wr
      exact checksOk_pureM _
    · apply checksOk_bindM _ _ (checksOk_checked _ _)
      intro _
      apply checksOk_bindM _ _ (checksOk_checked _ _)
      intro _
      apply checksOk_bindM _ _ (ih _)
      intro wr
      exact checksOk_pureM _

theorem checksOk_getRun (srv : Server) (limit batch : Int) (magic dryrun : Bool)
    (format : String) (fuel : Nat) :
    ChecksOk (getRun srv limit batch magic dryrun format fuel) := by
  unfold getRun
  apply checksOk_bindM _ _ (checksOk_request _)
  intro _
  apply checksOk_bindM
  · split
    · exact checksOk_magicDiscover _ _
    · exact checksOk_pagedDiscover _ _ _ _ _
  · intro ids
    apply checksOk_bindM _ _ (checksOk_exportBatches _ _ _ _ _ _)
    intro wr
    exact checksOk_pureM _

/-- Number of transfer-bucket DELETE requests in a trace. -/
def delCount (tr : Tr) : Nat := (tr.filter (fun p => p.1.isDelete)).length

theorem delCount_append (a b : Tr) :
    delCount (a ++ b) = delCount a + delCount b := by
  simp [delCount, List.filter_append]

/-- A run fragment that issues no transfer-bucket DELETE, whatever happens. -/
def NoDeletes {α : Type} (m : M α) : Prop := delCount m.2 = 0

theorem noDeletes_pureM {α : Type} (a : α) : NoDeletes (pureM a) := rfl

theorem noDeletes_stopped {α : Type} (s : Stop) :
    NoDeletes ((.error s, []) : M α) := rfl

theorem noDeletes_checked (l : ReqLabel) (s : Nat) (h : l.isDelete = false) :
    NoDeletes (checked l s) := by
  unfold NoDeletes checked
  split <;> simp [delCount, List.filter, h]

theorem noDeletes_request (l : ReqLabel) (s : Nat) (h : l.isDelete = false) :
    NoDeletes (request l s) := by
  unfold NoDeletes request
  simp [delCount, List.filter, h]

theorem noDeletes_bindM {α β : Type} (m : M α) (f : α → M β)
    (hm : NoDeletes m) (hf : ∀ a, NoDeletes (f a)) : NoDeletes (bindM m f) := by
  rcases m with ⟨e, tr⟩
  cases e with
  | error s => exact hm
  | ok a =>
    rcases h : f a with ⟨r, tr2⟩
    have h2 := hf a
    rw [h] at h2
    unfold NoDeletes at hm h2 ⊢
    simp only [bindM, h]
    show delCount (tr ++ tr2) = 0
    rw [delCount_append]
    have hm2 : delCount tr = 0 := hm
    have h22 : delCount tr2 = 0 := h2
    rw [hm2, h22]

theorem noDeletes_fillPuts (srv : Server) (i : Nat) :
    ∀ (subs : List (List String)) (j : Nat), NoDeletes (fillPuts srv i subs j) := by
  intro subs
  induction subs with
  | nil =>
    intro j
    exact noDeletes_pureM _
  | cons b bs ih =>
    intro j
    simp only [fillPuts]
    exact noDeletes_bindM _ _ (noDeletes_checked (.putBucket i j) _ rfl) (fun _ => ih _)

theorem noDeletes_magicDiscover (srv : Server) (limit : Int) :
    NoDeletes (magicDiscover srv limit) := by
  unfold magicDiscover
  apply noDeletes_bindM _ _ (noDeletes_checked .qMagic _ rfl)
  intro _
  apply noDeletes_bindM _ _ (noDeletes_checked .putMagic _ rfl)
  intro _
  apply noDeletes_bindM _ _ (noDeletes_checked .getMagic _ rfl)
  intro _
  exact noDeletes_pureM _

theorem noDeletes_pagedDiscover (srv : Server) (limit : Int) :
    ∀ (fuel : Nat) (ofs : Int) (ids : List String),
      NoDeletes (pagedDiscover srv limit fuel ofs ids) := by
  intro fuel
  induction fuel with
  | zero =>
    intro ofs ids
    exact noDeletes_stopped _
  | succ fuel ih =>
    intro ofs ids
    simp only [pagedDiscover]
    apply noDeletes_bindM _ _ (noDeletes_checked (.qPage (ofs + 1)) _ rfl)
    intro _
    cases (srv.qPage (ofs + 1)).atTo with
    | none => exact noDeletes_stopped _
    | some ofs2 =>
      dsimp only
      cases query_records (srv.qPage (ofs + 1)).metadata with
      | none => exact noDeletes_stopped _
      | some recs =>
        dsimp only
        cases recs.map (fun r => r.uuid) with
        | nil => exact noDeletes_pureM _
        | cons newid newids =>
          dsimp only
          split
          · exact noDeletes_pureM _
          · exact ih _ _

theorem delCount_singleton (l : ReqLabel) (s : Nat) :
    delCount [(l, s)] = if l.isDelete then 1 else 0 := by
  unfold delCount
  cases h : l.isDelete <;> simp [List.filter, h]

theorem noDeletes_eq_zero {α : Type} {m : M α} (h : NoDeletes m) {e : Except Stop α}
    {tr : Tr} (he : m = (e, tr)) : delCount tr = 0 := by
  unfold NoDeletes at h
  rw [he] at h
  exact h

theorem exportBatches_ok_spec (srv : Server) (format : String) (dryrun : Bool)
    (n : Nat) : ∀ (bs : List (List String)) (i : Nat)
      (wr : List String × List String) (tr : Tr),
      exportBatches srv format dryrun n bs i = (.ok wr, tr) →
      delCount tr = bs.length ∧
      wr.1.length = (if dryrun then 0 else bs.length) ∧
      wr.2.length = (if dryrun then bs.length else 0) := by
  intro bs
  induction bs with
  | nil =>
    intro i wr tr h
    rcases pureM_eq_ok _ _ _ h with ⟨hw, htr⟩
    subst htr
    cases hw
    simp [delCount]
  | cons b bs ih =>
    intro i wr tr h
    simp only [exportBatches] at h
    rcases bindM_eq_ok _ _ _ _ h with ⟨u1, trA, trBC, hA, hB, htr⟩
    rcases bindM_eq_ok _ _ _ _ hB with ⟨u2, trB, trC, hB1, hC, htr2⟩
    have hAdel : delCount trA = 0 :=
      noDeletes_eq_zero (noDeletes_fillPuts srv i (bucketSubBatches b) 0) hA
    rcases checked_eq_ok _ _ _ _ hB1 with ⟨hBtr, _⟩
    subst hBtr
    cases hd : dryrun with
    | true =>
      subst hd
      rw [if_pos rfl] at hC
      rcases bindM_eq_ok _ _ _ _ hC with ⟨u3, trD, trE, hD1, hE, htr3⟩
      rcases checked_eq_ok _ _ _ _ hD1 with ⟨hDtr, _⟩
      subst hDtr
      rcases bindM_eq_ok _ _ _ _ hE with ⟨wr2, trF, trG, hF, hG, htr4⟩
      rcases pureM_eq_ok _ _ _ hG with ⟨hw, htrG⟩
      subst htrG
      cases hw
      rcases ih (i + 1) wr2 trF hF with ⟨ihDel, ihW, ihWW⟩
      subst htr htr2 htr3 htr4
      refine ⟨?_, ?_, ?_⟩
      · simp only [delCount_append, hAdel, delCount_singleton]
        simp only [ReqLabel.isDelete]
        rw [ihDel]
        have hnil : delCount ([] : Tr) = 0 := rfl
        rw [hnil]
        simp [Nat.add_comm]
      · simpa using ihW
      · simp at ihWW ⊢
        omega
    | false =>
      subst hd
      rw [if_neg Bool.false_ne_true] at hC
      rcases bindM_eq_ok _ _ _ _ hC with ⟨u3, trX, trD2, hX1, hD, htr3⟩
      rcases checked_eq_ok _ _ _ _ hX1 with ⟨hXtr, _⟩
      subst hXtr
      rcases bindM_eq_ok _ _ _ _ hD with ⟨u4, trD, trE, hD1, hE, htr4⟩
      rcases checked_eq_ok _ _ _ _ hD1 with ⟨hDtr, _⟩
      subst hDtr
      rcases bindM_eq_ok _ _ _ _ hE with ⟨wr2, trF, trG, hF, hG, htr5⟩
      rcases pureM_eq_ok _ _ _ hG with ⟨hw, htrG⟩
      subst htrG
      cases hw
      rcases ih (i + 1) wr2 trF hF with ⟨ihDel, ihW, ihWW⟩
      subst htr htr2 htr3 htr4 htr5
      refine ⟨?_, ?_, ?_⟩
      · simp only [delCount_append, hAdel, delCount_singleton]
        simp only [ReqLabel.isDelete]
        rw [ihDel]
        have hnil : delCount ([] : Tr) = 0 := rfl
        rw [hnil]
        simp [Nat.add_comm]
      · simp at ihW ⊢
        omega
      · simpa using ihWW

theorem fillPuts_ok_length (srv : Server) (i : Nat) :
    ∀ (subs : List (List String)) (j : Nat) (a : Unit) (tr : Tr),
      fillPuts srv i subs j = (.ok a, tr) → tr.length = subs.length := by
  intro subs
  induction subs with
  | nil =>
    intro j a tr h
    rcases pureM_eq_ok _ _ _ h with ⟨_, htr⟩
    subst htr
    rfl
  | cons b bs ih =>
    intro j a tr h
    simp only [fillPuts] at h
    rcases bindM_eq_ok _ _ _ _ h with ⟨u, tr1, tr2, h1, h2, htr⟩
    rcases checked_eq_ok _ _ _ _ h1 with ⟨htr1, _⟩
    subst htr htr1
    simp [ih _ _ _ h2]

/-- The server answers every endpoint the `get` command uses with a non-error
status. -/
def ServerOK (srv : Server) : Prop :=
  ¬ isHTTPError srv.qMagicRsp.status_code ∧
  ¬ isHTTPError srv.putMagicStatus ∧
  ¬ isHTTPError srv.getMagicRsp.status_code ∧
  (∀ f, ¬ isHTTPError (srv.qPage f).status_code) ∧
  (∀ i j, ¬ isHTTPError (srv.putBucketStatus i j)) ∧
  (∀ i, ¬ isHTTPError (srv.getBucketRsp i).status_code) ∧
  (∀ i, ¬ isHTTPError (srv.mefExportStatus i)) ∧
  (∀ i, ¬ isHTTPError (srv.deleteBucketStatus i))

theorem fillPuts_total (srv : Server) (i : Nat)
    (hput : ∀ j, ¬ isHTTPError (srv.putBucketStatus i j)) :
    ∀ (subs : List (List String)) (j : Nat),
      ∃ tr, fillPuts srv i subs j = (.ok (), tr) := by
  intro subs
  induction subs with
  | nil =>
    intro j
    exact ⟨[], rfl⟩
  | cons b bs ih =>
    intro j
    rcases ih (j + 1) with ⟨tr, htr⟩
    refine ⟨(ReqLabel.putBucket i j, srv.putBucketStatus i j) :: tr, ?_⟩
    simp only [fillPuts]
    rw [checked_ok_of_not_error _ _ (hput j), bindM_ok, htr]
    rfl

theorem exportBatches_total (srv : Server) (hsrv : ServerOK srv)
    (format : String) (dryrun : Bool) (n : Nat) :
    ∀ (bs : List (List String)) (i : Nat),
      ∃ wr, (exportBatches srv format dryrun n bs i).1 = .ok wr := by
  intro bs
  induction bs with
  | nil =>
    intro i
    exact ⟨([], []), rfl⟩
  | cons b bs ih =>
    intro i
    rcases fillPuts_total srv i (fun j => hsrv.2.2.2.2.1 i j)
      (bucketSubBatches b) 0 with ⟨trA, hA⟩
    rcases ih (i + 1) with ⟨wr, hR⟩
    have hRfull : exportBatches srv format dryrun n bs (i + 1) =
        (.ok wr, (exportBatches srv format dryrun n bs (i + 1)).2) := by
      rw [← hR]
    cases dryrun with
    | true =>
      refine ⟨(wr.1, exportFilename format (srv.clock i) (partStr i n) :: wr.2), ?_⟩
      simp only [exportBatches]
      rw [hA, bindM_ok,
        checked_ok_of_not_error _ _ (hsrv.2.2.2.2.2.1 i), bindM_ok,
        if_true,
        checked_ok_of_not_error _ _ (hsrv.2.2.2.2.2.2.2 i), bindM_ok,
        hRfull, bindM_ok]
      rfl
    | false =>
      refine ⟨(exportFilename format (srv.clock i) (partStr i n) :: wr.1, wr.2), ?_⟩
      simp only [exportBatches]
      rw [hA, bindM_ok,
        checked_ok_of_not_error _ _ (hsrv.2.2.2.2.2.1 i), bindM_ok,
        if_neg Bool.false_ne_true,
        checked_ok_of_not_error _ _ (hsrv.2.2.2.2.2.2.1 i), bindM_ok,
        checked_ok_of_not_error _ _ (hsrv.2.2.2.2.2.2.2 i), bindM_ok,
        hRfull, bindM_ok]
      rfl

theorem getRun_ok_clears (srv : Server) (limit batch : Int) (magic dryrun : Bool)
    (format : String) (fuel : Nat) (res : GetResult) (tr : Tr)
    (h : getRun srv limit batch magic dryrun format fuel = (.ok res, tr)) :
    delCount tr = (mefBatches res.ids batch).length ∧
    (dryrun = true →
      res.written = [] ∧
      res.wouldWrite.length = (mefBatches res.ids batch).length) := by
  unfold getRun at h
  rcases bindM_eq_ok _ _ _ _ h with ⟨u, tr0, tr1, h0, h1, htr⟩
  have h0tr : tr0 = [(.handshake, srv.infoStatus)] :=
    ((congrArg Prod.snd h0).symm : tr0 = _)
  rcases bindM_eq_ok _ _ _ _ h1 with ⟨ids, trD, trE, hD, hE, htr2⟩
  have hDdel : delCount trD = 0 := by
    cases magic with
    | true =>
      rw [if_pos rfl] at hD
      exact noDeletes_eq_zero (noDeletes_magicDiscover srv limit) hD
    | false =>
      rw [if_neg Bool.false_ne_true] at hD
      exact noDeletes_eq_zero (noDeletes_pagedDiscover srv limit fuel 0 []) hD
  rcases bindM_eq_ok _ _ _ _ hE with ⟨wr, trX, trP, hX, hP, htr3⟩
  rcases pureM_eq_ok _ _ _ hP with ⟨hres, htrP⟩
  rcases exportBatches_ok_spec _ _ _ _ _ _ _ _ hX with ⟨hXdel, hXw, hXww⟩
  subst htr htr2 htr3 htrP h0tr
  cases hres
  constructor
  · simp only [delCount_append, hDdel, hXdel, delCount_singleton,
      ReqLabel.isDelete]
    simp [delCount]
  · intro hd
    subst hd
    constructor
    · simp only [if_pos rfl] at hXw
      simpa using List.length_eq_zero.mp hXw
    · simpa using hXww

theorem pySliceTo_nonneg {α : Type} (xs : List α) (n : Int) (h : 0 ≤ n) :
    pySliceTo xs n = xs.take n.toNat := by
  unfold pySliceTo
  rw [if_pos h]

theorem pagedDiscover_zero_acc (srv : Server) :
    ∀ (fuel : Nat) (ofs : Int) (acc full : List String) (tr : Tr),
      pagedDiscover srv 0 fuel ofs acc = (.ok full, tr) →
      ∃ ext, full = acc ++ ext := by
  intro fuel
  induction fuel with
  | zero =>
    intro ofs acc full tr h
    simp [pagedDiscover] at h
  | succ fuel ih =>
    intro ofs acc full tr h
    simp only [pagedDiscover] at h
    rcases bindM_eq_ok _ _ _ _ h with ⟨u, tr1, tr2, h1, h2, htr⟩
    cases hTo : (srv.qPage (ofs + 1)).atTo with
    | none =>
      rw [hTo] at h2
      simp at h2
    | some ofs2 =>
      rw [hTo] at h2
      dsimp only at h2
      cases hqr : query_records (srv.qPage (ofs + 1)).metadata with
      | none =>
        rw [hqr] at h2
        simp at h2
      | some recs =>
        rw [hqr] at h2
        dsimp only at h2
        cases hmap : recs.map (fun r => r.uuid) with
        | nil =>
          rw [hmap] at h2
          dsimp only at h2
          rcases pureM_eq_ok _ _ _ h2 with ⟨hacc, _⟩
          refine ⟨[], ?_⟩
          rw [← hacc]
          simp
        | cons newid newids =>
          rw [hmap] at h2
          dsimp only at h2
          rw [if_neg (by simp)] at h2
          rcases ih _ _ _ _ h2 with ⟨ext, hext⟩
          refine ⟨newid :: newids ++ ext, ?_⟩
          rw [hext]
          simp

theorem pagedDiscover_limit_spec (srv : Server) (limit : Int) (hl : 0 < limit) :
    ∀ (fuel : Nat) (ofs : Int) (acc res full : List String) (tr1 tr2 : Tr),
      (acc.length : Int) < limit →
      pagedDiscover srv limit fuel ofs acc = (.ok res, tr1) →
      pagedDiscover srv 0 fuel ofs acc = (.ok full, tr2) →
      (limit ≤ (full.length : Int) → res = full.take limit.toNat) ∧
      ((full.length : Int) < limit → res = full) := by
  intro fuel
  induction fuel with
  | zero =>
    intro ofs acc res full tr1 tr2 hacc h1 h2
    simp [pagedDiscover] at h1
  | succ fuel ih =>
    intro ofs acc res full tr1 tr2 hacc h1 h2
    simp only [pagedDiscover] at h1 h2
    rcases bindM_eq_ok _ _ _ _ h1 with ⟨u, trA, trB, hA, hB, htrx⟩
    rcases bindM_eq_ok _ _ _ _ h2 with ⟨u2, trC, trD, hC, hD, htry⟩
    cases hTo : (srv.qPage (ofs + 1)).atTo with
    | none =>
      rw [hTo] at hB
      simp at hB
    | some ofs2 =>
      rw [hTo] at hB hD
      dsimp only at hB hD
      cases hqr : query_records (srv.qPage (ofs + 1)).metadata with
      | none =>
        rw [hqr] at hB
        simp at hB
      | some recs =>
        rw [hqr] at hB hD
        dsimp only at hB hD
        cases hmap : recs.map (fun r => r.uuid) with
        | nil =>
          rw [hmap] at hB hD
          dsimp only at hB hD
          rcases pureM_eq_ok _ _ _ hB with ⟨hr, _⟩
          rcases pureM_eq_ok _ _ _ hD with ⟨hf, _⟩
          constructor
          · intro hge
            exfalso
            rw [← hf] at hge
            omega
          · intro _
            rw [← hr, ← hf]
        | cons newid newids =>
          rw [hmap] at hB hD
          dsimp only at hB hD
          rw [if_neg (by simp)] at hD
          by_cases hcond : limit ≠ 0 ∧ limit ≤ ((acc ++ newid :: newids).length : Int)
          · rw [if_pos hcond] at hB
            rcases pureM_eq_ok _ _ _ hB with ⟨hr, _⟩
            rcases pagedDiscover_zero_acc srv _ _ _ _ _ hD with ⟨ext, hext⟩
            have hlen : limit.toNat ≤ (acc ++ newid :: newids).length := by
              have := hcond.2
              omega
            constructor
            · intro _
              rw [← hr, pySliceTo_nonneg _ _ (le_of_lt hl), hext,
                List.take_append_of_le_length hlen]
            · intro hlt
              exfalso
              rw [hext] at hlt
              simp only [List.length_append] at hlt
              have h2 := hcond.2
              simp only [List.length_append] at h2
              omega
          · rw [if_neg hcond] at hB
            have hlen2 : (((acc ++ newid :: newids).length : Int)) < limit := by
              have hne : limit ≠ 0 := by omega
              by_contra hge
              exact hcond ⟨hne, by omega⟩
            exact ih _ _ _ _ _ _ hlen2 hB hD

theorem dictGet_append (a b : List (String × String)) (k : String) :
    dictGet (a ++ b) k =
      match dictGet b k with
      | some v => some v
      | none => dictGet a k := by
  unfold dictGet
  rw [List.filter_append]
  cases hfb : b.filter (fun p => p.1 == k) with
  | nil => simp
  | cons x xs =>
    rw [List.getLast?_append_of_ne_nil _ (List.cons_ne_nil x xs)]
    cases h2 : (x :: xs).getLast? with
    | none => simp at h2
    | some v => simp

theorem mef_records_eq_filter :
    ∀ (archive : List ArchiveEntry),
      mef_records archive =
        (archive.filter (fun e => e.is_dir && e.hasMetadataXml)).map
          (fun e => ⟨e.name, e.xmlText⟩) := by
  intro archive
  induction archive with
  | nil => rfl
  | cons p ps ih =>
    cases hp : p.is_dir <;> cases hq : p.hasMetadataXml <;>
      simp [mef_records, hp, hq, ih, List.filter]

theorem putRecs_ok (srv : PutServer)
    (hput : ∀ k, ¬ isHTTPError (srv.putRecordStatus k)) :
    ∀ (rs : List MefRec) (i : Nat),
      (putRecs srv rs i).1 = .ok (i + rs.length) := by
  intro rs
  induction rs with
  | nil =>
    intro i
    simp [putRecs, pureM]
  | cons r rs ih =>
    intro i
    simp only [putRecs]
    rw [checked_ok_of_not_error _ _ (hput i), bindM_ok]
    dsimp only
    rw [ih (i + 1)]
    have harith : i + 1 + rs.length = i + (rs.length + 1) := by omega
    rw [harith]
    rfl

theorem getRun_handshake_logged (srv : Server) (limit batch : Int)
    (magic dryrun : Bool) (format : String) (fuel : Nat) :
    ∃ rest, (getRun srv limit batch magic dryrun format fuel).2 =
      (ReqLabel.handshake, srv.infoStatus) :: rest := by
  unfold getRun
  rw [show request .handshake srv.infoStatus =
    ((.ok (), [(.handshake, srv.infoStatus)]) : M Unit) from rfl, bindM_ok]
  exact ⟨_, rfl⟩

theorem request_eq (l : ReqLabel) (s : Nat) :
    request l s = ((.ok (), [(l, s)]) : M Unit) := rfl

theorem magicDiscover_update (srv : Server) (s : Nat) (limit : Int) :
    magicDiscover { srv with infoStatus := s } limit = magicDiscover srv limit := rfl

theorem pagedDiscover_update (srv : Server) (s : Nat) (limit : Int) :
    ∀ (fuel : Nat) (ofs : Int) (ids : List String),
      pagedDiscover { srv with infoStatus := s } limit fuel ofs ids =
      pagedDiscover srv limit fuel ofs ids := by
  intro fuel
  induction fuel with
  | zero =>
    intro ofs ids
    rfl
  | succ fuel ih =>
    intro ofs ids
    simp only [pagedDiscover, ih]

theorem fillPuts_update (srv : Server) (s : Nat) (i : Nat) :
    ∀ (subs : List (List String)) (j : Nat),
      fillPuts { srv with infoStatus := s } i subs j = fillPuts srv i subs j := by
  intro subs
  induction subs with
  | nil =>
    intro j
    rfl
  | cons b bs ih =>
    intro j
    simp only [fillPuts, ih]

theorem exportBatches_update (srv : Server) (s : Nat) (format : String)
    (dryrun : Bool) (n : Nat) :
    ∀ (bs : List (List String)) (i : Nat),
      exportBatches { srv with infoStatus := s } format dryrun n bs i =
      exportBatches srv format dryrun n bs i := by
  intro bs
  induction bs with
  | nil =>
    intro i
    rfl
  | cons b bs ih =>
    intro i
    simp only [exportBatches, fillPuts_update, ih]

theorem getRun_infoStatus_irrel (srv : Server) (s : Nat) (limit batch : Int)
    (magic dryrun : Bool) (format : String) (fuel : Nat) :
    (getRun { srv with infoStatus := s } limit batch magic dryrun format fuel).1 =
    (getRun srv limit batch magic dryrun format fuel).1 := by
  unfold getRun
  rw [request_eq, request_eq, bindM_ok, bindM_ok]
  simp only [magicDiscover_update, pagedDiscover_update, exportBatches_update]

/-- A concrete all-success demonstration server, used to instantiate the
run-level theorems at concrete inputs. -/
def srvDemo : Server := {
  infoStatus := 200
  infoCookies := [("JSESSIONID", "s1"), ("XSRF-TOKEN", "tok")]
  qMagicRsp := ⟨200, some 3, [.plain ⟨"id1"⟩, .plain ⟨"id2"⟩, .plain ⟨"id3"⟩]⟩
  putMagicStatus := 200
  getMagicRsp := ⟨200, ["id1", "id2", "id3"]⟩
  qPage := fun f => if f = 1 then ⟨200, some 2, [.plain ⟨"id1"⟩, .plain ⟨"id2"⟩]⟩
                    else ⟨200, some 2, []⟩
  putBucketStatus := fun _ _ => 200
  getBucketRsp := fun _ => ⟨200, []⟩
  mefExportStatus := fun _ => 200
  deleteBucketStatus := fun _ => 200
  clock := fun _ => 1700000000 }

theorem srvDemo_ok : ServerOK srvDemo := by
  refine ⟨by decide, by decide, by decide, ?_,
    fun i j => (by decide : ¬ isHTTPError 200),
    fun i => (by decide : ¬ isHTTPError 200),
    fun i => (by decide : ¬ isHTTPError 200),
    fun i => (by decide : ¬ isHTTPError 200)⟩
  intro f
  unfold srvDemo
  dsimp only
  split <;> decide

/-- The demonstration server with a failing archive-export endpoint. -/
def srvExportFail : Server := { srvDemo with mefExportStatus := fun _ => 500 }

/-- C1, counterexample: the claim as stated quantifies over every non-empty
identifier list, but on a list with a duplicated identifier the contiguous
batches are not pairwise disjoint.  With `identifiers = ["a", "a"]` and
`batch_size = 1` the pipeline builds the batches `[["a"], ["a"]]`: the batch
count and concatenation conjuncts hold, the disjointness conjunct fails, so
the conjunction the claim asserts is false at this input. -/
theorem mef_C1_counterexample :
    ¬ ((mefBatches ["a", "a"] 1).length =
        ((["a", "a"] : List String).length + (1 : Int).toNat - 1) / (1 : Int).toNat ∧
      (mefBatches ["a", "a"] 1).flatten = ["a", "a"] ∧
      (mefBatches ["a", "a"] 1).Pairwise (fun b1 b2 => ∀ x ∈ b1, x ∉ b2)) := by
  decide

/-- C1, amended: for every non-empty list of pairwise-distinct identifiers
(identifiers are UUIDs, so duplicates do not occur in practice) and every
`batch_size > 0`, the export pipeline partitions the identifiers into exactly
`ceil(len/batch_size)` contiguous batches — pairwise disjoint, concatenating
back to the input in order — and, when every request succeeds, the export loop
writes exactly one archive file per batch. -/
theorem mef_C1_amended (srv : Server) (format : String) (ids : List String)
    (batch : Int) (hb : 0 < batch) (hne : ids ≠ []) (hnd : ids.Nodup)
    (hsrv : ServerOK srv) :
    (mefBatches ids batch).length = (ids.length + batch.toNat - 1) / batch.toNat ∧
    (mefBatches ids batch).flatten = ids ∧
    (mefBatches ids batch).Pairwise (fun b1 b2 => ∀ x ∈ b1, x ∉ b2) ∧
    ∃ wr, (exportBatches srv format false (mefBatches ids batch).length
        (mefBatches ids batch) 1).1 = .ok wr ∧
      wr.1.length = (mefBatches ids batch).length := by
  have hbn : 0 < batch.toNat := by omega
  have hmb : mefBatches ids batch = batched batch.toNat ids := by
    unfold mefBatches
    rw [if_neg (by omega)]
  refine ⟨?_, ?_, ?_, ?_⟩
  · rw [hmb, batched_length _ hbn]
  · rw [hmb, batched_flatten _ hbn]
  · rw [hmb]
    have hflat : (batched batch.toNat ids).flatten.Nodup := by
      rw [batched_flatten _ hbn]
      exact hnd
    have hpw := (List.nodup_flatten.mp hflat).2
    exact hpw.imp (fun hd x hx hx2 => hd hx hx2)
  · rcases exportBatches_total srv hsrv format false
      (mefBatches ids batch).length (mefBatches ids batch) 1 with ⟨wr, hwr⟩
    refine ⟨wr, hwr, ?_⟩
    have hfull : exportBatches srv format false (mefBatches ids batch).length
        (mefBatches ids batch) 1 =
        (.ok wr, (exportBatches srv format false (mefBatches ids batch).length
          (mefBatches ids batch) 1).2) := by
      rw [← hwr]
    rcases exportBatches_ok_spec _ _ _ _ _ _ _ _ hfull with ⟨_, hW, _⟩
    simpa using hW

theorem mef_C1_amended_witness :
    (mefBatches ["x", "y", "z"] 2).length =
      ((["x", "y", "z"] : List String).length + (2 : Int).toNat - 1) / (2 : Int).toNat ∧
    (mefBatches ["x", "y", "z"] 2).flatten = ["x", "y", "z"] ∧
    (mefBatches ["x", "y", "z"] 2).Pairwise (fun b1 b2 => ∀ x ∈ b1, x ∉ b2) ∧
    ∃ wr, (exportBatches srvDemo "simple" false (mefBatches ["x", "y", "z"] 2).length
        (mefBatches ["x", "y", "z"] 2) 1).1 = .ok wr ∧
      wr.1.length = (mefBatches ["x", "y", "z"] 2).length :=
  mef_C1_amended srvDemo "simple" ["x", "y", "z"] 2 (by decide) (by decide)
    (by decide) srvDemo_ok

/-- C2: every response whose status is in the 4xx/5xx error range makes
`abort_on_error` print a diagnostic and exit with status 1 (nonzero; there is
no retry — the model returns the exit at the first failing check), and the
diagnostic is chosen by trying, in order: the tag-stripped `<body>` element of
the response text; else the response parsed as JSON; else the raw text. -/
theorem mef_C2 {J : Type} (r : Response J) (h4 : 400 ≤ r.status_code)
    (h6 : r.status_code < 600) :
    ∃ d, abort_on_error r = some (d, 1) ∧ (1 : Nat) ≠ 0 ∧
      ((∃ m0, searchBody r.text.toList = some m0 ∧
          d = .htmlBody (String.mk (stripTags m0))) ∨
       (searchBody r.text.toList = none ∧
          ∃ j, r.jsonOrError = some j ∧ d = .jsonBody j) ∨
       (searchBody r.text.toList = none ∧ r.jsonOrError = none ∧
          d = .rawText r.text)) := by
  refine ⟨mkDiagnostic r, ?_, by decide, ?_⟩
  · unfold abort_on_error
    rw [if_pos ⟨h4, h6⟩]
  · cases hs : searchBody r.text.toList with
    | some m0 =>
      refine Or.inl ⟨m0, rfl, ?_⟩
      unfold mkDiagnostic
      rw [hs]
    | none =>
      cases hj : r.jsonOrError with
      | some j =>
        refine Or.inr (Or.inl ⟨rfl, j, rfl, ?_⟩)
        unfold mkDiagnostic
        rw [hs, hj]
      | none =>
        refine Or.inr (Or.inr ⟨rfl, rfl, ?_⟩)
        unfold mkDiagnostic
        rw [hs, hj]

theorem mef_C2_witness :
    ∃ d, abort_on_error (⟨404, "<body>failed</body>", none⟩ : Response String) =
        some (d, 1) ∧ (1 : Nat) ≠ 0 ∧
      ((∃ m0, searchBody ("<body>failed</body>" : String).toList = some m0 ∧
          d = .htmlBody (String.mk (stripTags m0))) ∨
       (searchBody ("<body>failed</body>" : String).toList = none ∧
          ∃ j, (none : Option String) = some j ∧ d = .jsonBody j) ∨
       (searchBody ("<body>failed</body>" : String).toList = none ∧
          (none : Option String) = none ∧ d = .rawText "<body>failed</body>")) :=
  mef_C2 (⟨404, "<body>failed</body>", none⟩ : Response String) (by decide) (by decide)

/-- C3, counterexample: the DELETE clearing the transfer bucket is *not*
issued regardless of the archive-export outcome.  On a server whose
`mef.export` endpoint answers 500, the run makes the export request and then
aborts via `abort_on_error` (mef.py line 112) before ever reaching the DELETE
at line 118: the resulting trace contains the failed `mefExport` request and
no `deleteBucket` request at all. -/
theorem mef_C3_counterexample :
    (getRun srvExportFail 0 0 true false "simple" 1).1 = .error .abort ∧
    ((getRun srvExportFail 0 0 true false "simple" 1).2.filter
      (fun p => p.1.isDelete)).length = 0 ∧
    (getRun srvExportFail 0 0 true false "simple" 1).2.filter
      (fun p => decide (p.1 = ReqLabel.mefExport 1)) = [(.mefExport 1, 500)] := by
  decide

/-- C3, amended: whenever a `get` run completes without aborting, exactly one
transfer-bucket DELETE is issued per batch — in dry-run mode as well, where
additionally no file is written and one intended filename is reported per
batch.  (If the archive-export request or any earlier call in a batch errors,
the process exits before that batch's DELETE.) -/
theorem mef_C3_amended (srv : Server) (limit batch : Int) (magic dryrun : Bool)
    (format : String) (fuel : Nat) (res : GetResult) (tr : Tr)
    (h : getRun srv limit batch magic dryrun format fuel = (.ok res, tr)) :
    delCount tr = (mefBatches res.ids batch).length ∧
    (dryrun = true → res.written = [] ∧
      res.wouldWrite.length = (mefBatches res.ids batch).length) :=
  getRun_ok_clears srv limit batch magic dryrun format fuel res tr h

theorem mef_C3_amended_witness :
    delCount [(.handshake, 200), (.qMagic, 200), (.putMagic, 200), (.getMagic, 200),
      (.putBucket 1 0, 200), (.getBucket 1, 200), (.deleteBucket 1, 200),
      (.putBucket 2 0, 200), (.getBucket 2, 200), (.deleteBucket 2, 200)] =
      (mefBatches (GetResult.mk ["id1", "id2", "id3"] []
        ["export-simple-1700000000-01.zip", "export-simple-1700000000-02.zip"]).ids 2).length ∧
    (true = true →
      (GetResult.mk ["id1", "id2", "id3"] []
        ["export-simple-1700000000-01.zip", "export-simple-1700000000-02.zip"]).written = [] ∧
      (GetResult.mk ["id1", "id2", "id3"] []
        ["export-simple-1700000000-01.zip", "export-simple-1700000000-02.zip"]).wouldWrite.length =
        (mefBatches (GetResult.mk ["id1", "id2", "id3"] []
          ["export-simple-1700000000-01.zip", "export-simple-1700000000-02.zip"]).ids 2).length) :=
  mef_C3_amended srvDemo 0 2 true true "simple" 1
    (GetResult.mk ["id1", "id2", "id3"] []
      ["export-simple-1700000000-01.zip", "export-simple-1700000000-02.zip"])
    [(.handshake, 200), (.qMagic, 200), (.putMagic, 200), (.getMagic, 200),
      (.putBucket 1 0, 200), (.getBucket 1, 200), (.deleteBucket 1, 200),
      (.putBucket 2 0, 200), (.getBucket 2, 200), (.deleteBucket 2, 200)]
    (by decide)

/-- C4: limit truncation for both discovery strategies.  Magic-bucket: when
`limit > 0` and the bucket's identifier list has reached or exceeded `limit`,
the mef.py line 71-72 truncation keeps exactly the first `limit` identifiers;
`limit = 0` leaves the list untouched.  Paginated: when a limited run and the
corresponding unbounded (`limit = 0`) run both terminate, `limit > 0` with at
least `limit` identifiers accumulated yields exactly the first `limit`
identifiers of the unbounded result, in discovery order; `limit = 0` runs are
never truncated. -/
theorem mef_C4 (limit : Int) (ids : List String) (srv : Server) (fuel : Nat)
    (res full : List String) (tr1 tr2 : Tr) :
    ((0 < limit → limit ≤ (ids.length : Int) →
        magicTrunc limit ids = ids.take limit.toNat ∧
        (magicTrunc limit ids).length = limit.toNat) ∧
     (limit = 0 → magicTrunc limit ids = ids)) ∧
    (pagedDiscover srv limit fuel 0 [] = (.ok res, tr1) →
     pagedDiscover srv 0 fuel 0 [] = (.ok full, tr2) →
     ((0 < limit → limit ≤ (full.length : Int) →
        res = full.take limit.toNat ∧ res.length = limit.toNat) ∧
      (limit = 0 → res = full))) := by
  constructor
  · constructor
    · intro hl hge
      have heq : magicTrunc limit ids = ids.take limit.toNat := by
        unfold magicTrunc
        rw [if_pos ⟨by omega, hge⟩, pySliceTo_nonneg _ _ (le_of_lt hl)]
      refine ⟨heq, ?_⟩
      rw [heq, List.length_take]
      omega
    · intro h0
      subst h0
      unfold magicTrunc
      rw [if_neg (by simp)]
  · intro h1 h2
    constructor
    · intro hl hge
      have hspec := pagedDiscover_limit_spec srv limit hl fuel 0 [] res full
        tr1 tr2 (by simp; omega) h1 h2
      have heq : res = full.take limit.toNat := hspec.1 hge
      refine ⟨heq, ?_⟩
      rw [heq, List.length_take]
      omega
    · intro h0
      subst h0
      have := h1.symm.trans h2
      simp at this
      exact this.1

theorem mef_C4_witness :
    (magicTrunc 1 ["id1", "id2", "id3"] =
        (["id1", "id2", "id3"] : List String).take (1 : Int).toNat ∧
      (magicTrunc 1 ["id1", "id2", "id3"]).length = (1 : Int).toNat) ∧
    ((["id1"] : List String) = (["id1", "id2"] : List String).take (1 : Int).toNat ∧
      (["id1"] : List String).length = (1 : Int).toNat) := by
  have h := mef_C4 1 ["id1", "id2", "id3"] srvDemo 3 ["id1"] ["id1", "id2"]
    [(.qPage 1, 200)] [(.qPage 1, 200), (.qPage 3, 200)]
  exact ⟨h.1.1 (by decide) (by decide),
    (h.2 (by decide) (by decide)).1 (by decide) (by decide)⟩

/-- C5: import in `record` mode yields exactly the archive's top-level
directory entries containing `metadata/metadata.xml` (entries lacking it are
skipped silently, neither counted nor an error), and when the handshake and
every per-record PUT succeed, the run returns a count equal to the number of
those valid entries. -/
theorem mef_C5 (srv : PutServer) (archive : List ArchiveEntry)
    (h1 : ¬ isHTTPError srv.infoStatus)
    (h2 : ∀ k, ¬ isHTTPError (srv.putRecordStatus k)) :
    (putRecordRun srv archive).1 =
      .ok ((archive.filter (fun e => e.is_dir && e.hasMetadataXml)).length) ∧
    mef_records archive =
      (archive.filter (fun e => e.is_dir && e.hasMetadataXml)).map
        (fun e => ⟨e.name, e.xmlText⟩) := by
  constructor
  · unfold putRecordRun
    rw [checked_ok_of_not_error _ _ h1, bindM_ok]
    dsimp only
    rw [putRecs_ok srv h2, mef_records_eq_filter]
    simp
  · exact mef_records_eq_filter archive

theorem mef_C5_witness :
    (putRecordRun ⟨200, fun _ => 200⟩
        [⟨"rec-a", true, true, "<x/>"⟩, ⟨"rec-b", true, false, ""⟩]).1 =
      .ok (([⟨"rec-a", true, true, "<x/>"⟩,
        (⟨"rec-b", true, false, ""⟩ : ArchiveEntry)].filter
          (fun e => e.is_dir && e.hasMetadataXml)).length) ∧
    mef_records [⟨"rec-a", true, true, "<x/>"⟩, ⟨"rec-b", true, false, ""⟩] =
      (([⟨"rec-a", true, true, "<x/>"⟩,
        (⟨"rec-b", true, false, ""⟩ : ArchiveEntry)].filter
          (fun e => e.is_dir && e.hasMetadataXml)).map
        (fun e => ⟨e.name, e.xmlText⟩)) :=
  mef_C5 ⟨200, fun _ => 200⟩
    [⟨"rec-a", true, true, "<x/>"⟩, ⟨"rec-b", true, false, ""⟩]
    (by decide) (fun k => (by decide : ¬ isHTTPError 200))

/-- C6: with `batch_size <= 0` the pipeline builds exactly one batch holding
the whole identifier list, and the single batch's filename part is `"all"`;
whenever there is more than one batch, batch `i`'s part is the 1-based index
rendered by the `{i:02}` format (decimal, zero-padded on the left to width
two). -/
theorem mef_C6 (ids : List String) (batch : Int) :
    (batch ≤ 0 → mefBatches ids batch = [ids] ∧
      partStr 1 (mefBatches ids batch).length = "all") ∧
    (∀ i n, n = (mefBatches ids batch).length → 1 < n → partStr i n = fmt02 i) := by
  constructor
  · intro hb
    have h : mefBatches ids batch = [ids] := by
      unfold mefBatches
      rw [if_pos hb]
    refine ⟨h, ?_⟩
    rw [h]
    rfl
  · intro i n hn h1
    unfold partStr
    rw [if_neg (by omega)]

theorem mef_C6_witness :
    mefBatches ["a", "b"] 0 = [["a", "b"]] ∧
    partStr 1 (mefBatches ["a", "b"] 0).length = "all" :=
  (mef_C6 ["a", "b"] 0).1 (by decide)

/-- C7: the bucket fill step cuts any identifier list into sub-batches of at
most `BUCKET_BATCH_SIZE = 100` identifiers (a constant independent of the
transfer-batch size: `bucketSubBatches` takes no batch argument), whose
concatenation is the input, and the fill loop issues exactly one PUT per
sub-batch when it completes. -/
theorem mef_C7 (ids : List String) :
    (∀ b ∈ bucketSubBatches ids, b.length ≤ BUCKET_BATCH_SIZE) ∧
    (bucketSubBatches ids).flatten = ids ∧
    (∀ (srv : Server) (i j : Nat) (a : Unit) (tr : Tr),
      fillPuts srv i (bucketSubBatches ids) j = (.ok a, tr) →
      tr.length = (bucketSubBatches ids).length) := by
  refine ⟨?_, ?_, ?_⟩
  · intro b hb
    exact batched_mem_length _ _ _ hb
  · exact batched_flatten _ (by decide) ids
  · intro srv i j a tr h
    exact fillPuts_ok_length srv i _ j a tr h

theorem mef_C7_witness :
    (["a", "b"] : List String).length ≤ BUCKET_BATCH_SIZE ∧
    ([(ReqLabel.putBucket 1 0, 200)] : Tr).length =
      (bucketSubBatches ["a", "b"]).length :=
  ⟨(mef_C7 ["a", "b"]).1 ["a", "b"] (by decide),
   (mef_C7 ["a", "b"]).2.2 srvDemo 1 0 () [(.putBucket 1 0, 200)] (by decide)⟩

/-- C8: the `query_records` normalization treats a metadata entry wrapped in a
one-element list exactly like the unwrapped entry: prepended to any tail, both
yield the same records (hence the same identifiers). -/
theorem mef_C8 (m : MetaRecord) (ms : List MetaEntry) :
    query_records (.wrapped [m] :: ms) = query_records (.plain m :: ms) := rfl

/-- C9, counterexample: the discovery query mapping's fixed key is
`_content_type` (mef.py line 51), not `content-type`: with user query `a=b`
the merged dict has no `content-type` key at all, while `_content_type` maps
to `json`.  So the claim's "contains the fixed keys content-type=json, ..." is
false as stated. -/
theorem mef_C9_counterexample :
    qParams (some "a=b") = some (fixedQParams ++ [("a", "b")]) ∧
    dictGet (fixedQParams ++ [("a", "b")]) "content-type" = none ∧
    dictGet (fixedQParams ++ [("a", "b")]) "_content_type" = some "json" := by
  decide

/-- C9, amended: for every non-empty user query that parses into `key=value`
pairs, the mapping sent to the discovery endpoint is the fixed dict
`_content_type=json, sortBy=changeDate, resultType=results,
buildSummary=false` merged with the user pairs, and on a key collision the
user-supplied value wins (the fixed value is used exactly when the user
supplied none). -/
theorem mef_C9_amended (q : String) (ps : List (String × String))
    (hq : q ≠ "") (h : parseQuery q = some ps) :
    qParams (some q) = some (fixedQParams ++ ps) ∧
    (∀ k v, dictGet ps k = some v → dictGet (fixedQParams ++ ps) k = some v) ∧
    (∀ k, dictGet ps k = none →
      dictGet (fixedQParams ++ ps) k = dictGet fixedQParams k) ∧
    dictGet fixedQParams "_content_type" = some "json" ∧
    dictGet fixedQParams "sortBy" = some "changeDate" ∧
    dictGet fixedQParams "resultType" = some "results" ∧
    dictGet fixedQParams "buildSummary" = some "false" := by
  refine ⟨?_, ?_, ?_, by decide, by decide, by decide, by decide⟩
  · unfold qParams
    dsimp only
    rw [if_neg hq, h]
    rfl
  · intro k v hv
    rw [dictGet_append, hv]
  · intro k hv
    rw [dictGet_append, hv]

theorem mef_C9_amended_witness :
    qParams (some "sortBy=title") = some (fixedQParams ++ [("sortBy", "title")]) ∧
    (∀ k v, dictGet [("sortBy", "title")] k = some v →
      dictGet (fixedQParams ++ [("sortBy", "title")]) k = some v) ∧
    (∀ k, dictGet [("sortBy", "title")] k = none →
      dictGet (fixedQParams ++ [("sortBy", "title")]) k = dictGet fixedQParams k) ∧
    dictGet fixedQParams "_content_type" = some "json" ∧
    dictGet fixedQParams "sortBy" = some "changeDate" ∧
    dictGet fixedQParams "resultType" = some "results" ∧
    dictGet fixedQParams "buildSummary" = some "false" :=
  mef_C9_amended "sortBy=title" [("sortBy", "title")] (by decide) (by decide)

/-- C10: in the `get` command the session-handshake response is the one call
whose status is never checked: the run's outcome is literally independent of
the handshake status (first conjunct), the handshake request is still issued
and logged first with whatever status the server gave (second conjunct), and
every other request that a successfully completing run issued was answered
with a non-error status — equivalently, an error status on any non-handshake
request prevents normal completion, the run aborting instead (third
conjunct). -/
theorem mef_C10 (srv : Server) (s : Nat) (limit batch : Int)
    (magic dryrun : Bool) (format : String) (fuel : Nat) :
    ((getRun { srv with infoStatus := s } limit batch magic dryrun format fuel).1 =
      (getRun srv limit batch magic dryrun format fuel).1) ∧
    (∃ rest, (getRun srv limit batch magic dryrun format fuel).2 =
      (ReqLabel.handshake, srv.infoStatus) :: rest) ∧
    (∀ res tr, getRun srv limit batch magic dryrun format fuel = (.ok res, tr) →
      ∀ p ∈ tr, p.1 ≠ ReqLabel.handshake → ¬ isHTTPError p.2) := by
  refine ⟨getRun_infoStatus_irrel srv s limit batch magic dryrun format fuel,
    getRun_handshake_logged srv limit batch magic dryrun format fuel, ?_⟩
  intro res tr h p hp hne
  rcases checksOk_getRun srv limit batch magic dryrun format fuel res tr h p hp
    with h1 | h1
  · exact absurd h1 hne
  · exact h1

theorem mef_C10_witness :
    ((getRun { srvDemo with infoStatus := 500 } 0 0 true true "simple" 1).1 =
      (getRun srvDemo 0 0 true true "simple" 1).1) ∧
    isHTTPError 500 ∧
    (getRun { srvDemo with infoStatus := 500 } 0 0 true true "simple" 1).1 =
      Except.ok ⟨["id1", "id2", "id3"], [], ["export-simple-1700000000-all.zip"]⟩ ∧
    ¬ isHTTPError 200 := by
  have h := mef_C10 srvDemo 500 0 0 true true "simple" 1
  refine ⟨h.1, by decide, ?_, ?_⟩
  · rw [h.1]
    decide
  · exact h.2.2 ⟨["id1", "id2", "id3"], [], ["export-simple-1700000000-all.zip"]⟩
      [(.handshake, 200), (.qMagic, 200), (.putMagic, 200), (.getMagic, 200),
        (.putBucket 1 0, 200), (.getBucket 1, 200), (.deleteBucket 1, 200)]
      (by decide) (.qMagic, 200) (by decide) (by decide)
